import Mathlib

/-!
Shallow embedding of user_engagement_dashboard.py: a pandas/streamlit
dashboard that cleans a tabular dataset (lowercase/trim column names,
impute missing numeric values with column means, drop duplicate rows),
filters rows by selected courses, aggregates per-course means sorted
descending, dispatches one of three chart kinds, and reports two
superlative insights.

Cells are modelled by `Value` (string, rational number, or missing);
a `DataFrame` is an ordered list of column names plus rows of cells.
Pandas NaN is `Value.missing`; `drop_duplicates` treats NaN cells as
equal, which the decidable equality on `Value` mirrors.  Numeric means
skip missing entries exactly as pandas `mean()` skips NaN.  String
operations (strip, lower, lexicographic order) are implemented over the
character list so that they evaluate on concrete data.
-/

/-- A cell of the tabular dataset: a string, a numeric value (rationals
stand in for floats), or a missing entry (pandas NaN). -/
inductive Value where
  | str (s : String)
  | num (q : ℚ)
  | missing
deriving DecidableEq, Repr

/-- An in-memory tabular dataset: ordered column names and rows of cells.
Rows are positional; `getCell` resolves a column name to its first index. -/
structure DataFrame where
  cols : List String
  rows : List (List Value)
deriving DecidableEq, Repr

/-- A dataset is rectangular when every row has one cell per column
(the pandas DataFrame shape invariant). -/
def DataFrame.Rect (df : DataFrame) : Prop :=
  ∀ r ∈ df.rows, r.length = df.cols.length

/-- Cell of row `r` at the column named `c` (missing when the column is
absent or the row is too short), as `df[c]` reads a column by label. -/
def getCell (cols : List String) (r : List Value) (c : String) : Value :=
  r.getD (cols.indexOf c) .missing

/-- The column `c` of the dataset as a list of cells, top to bottom. -/
def colValues (df : DataFrame) (c : String) : List Value :=
  df.rows.map (fun r => getCell df.cols r c)

/-- Cells of the column at positional index `i` across the given rows. -/
def colAt (i : Nat) (rows : List (List Value)) : List Value :=
  rows.map (fun r => r.getD i .missing)

/-- Step 2 of the script: `x.strip().lower()` applied to a column label,
implemented over the character list (strip surrounding whitespace, then
lowercase every character). -/
def cleanName (s : String) : String :=
  ⟨(((s.data.dropWhile Char.isWhitespace).reverse.dropWhile Char.isWhitespace).reverse).map
    Char.toLower⟩

/-- Step 2 of the script: `df.rename(columns=lambda x: x.strip().lower())`. -/
def renameCols (df : DataFrame) : DataFrame :=
  ⟨df.cols.map cleanName, df.rows⟩

/-- The four known numeric column labels (`all_numeric_cols` in the script). -/
def allNumericCols : List String :=
  ["sessionsperweek", "coursecompletion", "usersatisfaction", "quizscore"]

/-- `numeric_cols`: the known numeric labels actually present in the dataset. -/
def numericCols (df : DataFrame) : List String :=
  allNumericCols.filter (fun c => decide (c ∈ df.cols))

/-- The numeric content of a cell: `some q` for a number, `none` otherwise. -/
def toNum : Value → Option ℚ
  | .num q => some q
  | .str _ => none
  | .missing => none

/-- The numeric entries of a column, skipping missing cells, as pandas
`mean()` skips NaN. -/
def numvals (vs : List Value) : List ℚ :=
  vs.filterMap toNum

/-- Arithmetic mean of a column over its non-missing entries; `none` when
there is none (pandas returns NaN there, and `fillna(NaN)` is a no-op). -/
def colMean (vs : List Value) : Option ℚ :=
  if (numvals vs).length = 0 then none else some ((numvals vs).sum / (numvals vs).length)

/-- One pass of Step 3: `df[col].fillna(df[col].mean(), inplace=True)` on the
column at index `i`.  When the mean is undefined (all entries missing) the
rows are unchanged, matching `fillna(NaN)`. -/
def fillColumn (i : Nat) (rows : List (List Value)) : List (List Value) :=
  match colMean (colAt i rows) with
  | none => rows
  | some m => rows.map (fun r => if r.getD i .missing = .missing then r.set i (.num m) else r)

/-- Step 3 imputation loop: `for col in numeric_cols: df[col].fillna(...)`,
one sequential pass per present numeric column. -/
def fillnaAll (df : DataFrame) : DataFrame :=
  ⟨df.cols, (numericCols df).foldl (fun rs c => fillColumn (df.cols.indexOf c) rs) df.rows⟩

/-- Worker for first-occurrence deduplication: drop any element already in
`seen`, otherwise keep it and remember it. -/
def firstDedupAux {α : Type} [DecidableEq α] (seen : List α) : List α → List α
  | [] => []
  | a :: as => if a ∈ seen then firstDedupAux seen as else a :: firstDedupAux (a :: seen) as

/-- First-occurrence deduplication: keeps the first copy of each element in
order, as pandas `drop_duplicates()` (rows) and `unique()` (values) do. -/
def firstDedup {α : Type} [DecidableEq α] (l : List α) : List α :=
  firstDedupAux [] l

/-- Steps 2 and 3 of the script: rename columns, impute numeric missing
values, then `df.drop_duplicates(inplace=True)`. -/
def clean (df : DataFrame) : DataFrame :=
  ⟨(fillnaAll (renameCols df)).cols, firstDedup (fillnaAll (renameCols df)).rows⟩

/-- Step 4: `courses = df['coursename'].unique()` — distinct course cells in
first-seen order. -/
def uniqueCourses (df : DataFrame) : List Value :=
  firstDedup (colValues df "coursename")

/-- Step 4: `filtered_df = df[df['coursename'].isin(selected)]` when the
selection is non-empty, else `df.copy()` (the empty-selection fallback). -/
def filterCourses (df : DataFrame) (sel : List Value) : DataFrame :=
  if sel = [] then df
  else ⟨df.cols, df.rows.filter (fun r => decide (getCell df.cols r "coursename" ∈ sel))⟩

/-- Lexicographic order on character lists by code point, the order Python
uses to compare the string keys that `groupby` sorts. -/
def charsLe : List Char → List Char → Bool
  | [], _ => true
  | _ :: _, [] => false
  | a :: as, b :: bs =>
    if a.toNat < b.toNat then true
    else if b.toNat < a.toNat then false
    else charsLe as bs

/-- Total order on cells used to sort `groupby` keys: numbers before strings
before missing, numbers by value, strings lexicographically.  Course keys in
the data are homogeneous strings, where this is exactly the pandas key
order; the cross-constructor cases only make the order total. -/
def vleB : Value → Value → Bool
  | .num a, .num b => decide (a ≤ b)
  | .num _, .str _ => true
  | .num _, .missing => true
  | .str _, .num _ => false
  | .str a, .str b => charsLe a.data b.data
  | .str _, .missing => true
  | .missing, .num _ => false
  | .missing, .str _ => false
  | .missing, .missing => true

/-- Propositional form of the key order. -/
def kle (a b : Value) : Prop := vleB a b = true

/-- Strict key order: non-strict order together with distinctness. -/
def klt (a b : Value) : Prop := kle a b ∧ a ≠ b

instance : DecidableRel kle := fun a b => inferInstanceAs (Decidable (_ = true))

instance : DecidableRel klt := fun _ _ => instDecidableAnd

/-- Order on optional means used by `sort_values`: a present value compares
by `≤`, and an absent mean (NaN) sorts below every present one, matching
`na_position='last'` in a descending sort. -/
def optLeB : Option ℚ → Option ℚ → Bool
  | none, _ => true
  | some _, none => false
  | some a, some b => decide (a ≤ b)

/-- Propositional form of the optional-mean order. -/
def optLe (x y : Option ℚ) : Prop := optLeB x y = true

/-- Strict form of the optional-mean order. -/
def optLt (x y : Option ℚ) : Prop := optLe x y ∧ ¬ optLe y x

instance : DecidableRel optLe := fun x y => inferInstanceAs (Decidable (_ = true))

/-- Comparison used by `sort_values(ascending=False)` on keyed means: a pair
precedes another when its mean is at least as large. -/
def rdesc (p q : Value × Option ℚ) : Prop := optLe q.2 p.2

instance : DecidableRel rdesc := fun p q => inferInstanceAs (Decidable (optLe q.2 p.2))

/-- The distinct non-missing course keys, first-seen order; `groupby` drops
missing keys (pandas `dropna=True`). -/
def groupKeys (df : DataFrame) : List Value :=
  firstDedup ((colValues df "coursename").filter (fun v => decide (v ≠ .missing)))

/-- The `groupby('coursename')` group keys in the order pandas yields them:
sorted ascending. -/
def sortedCourses (df : DataFrame) : List Value :=
  List.insertionSort kle (groupKeys df)

/-- The rows whose `coursename` cell equals `k` —
`filtered_df[filtered_df['coursename'] == course]`. -/
def courseRows (df : DataFrame) (k : Value) : List (List Value) :=
  df.rows.filter (fun r => decide (getCell df.cols r "coursename" = k))

/-- Column `c` restricted to the group of rows with course key `k`. -/
def groupValues (df : DataFrame) (c : String) (k : Value) : List Value :=
  (courseRows df k).map (fun r => getCell df.cols r c)

/-- Step 5 and Step 7 grouping: `groupby('coursename')[c].mean()` — one
(key, mean) pair per group, keys in ascending order. -/
def groupMeans (df : DataFrame) (c : String) : List (Value × Option ℚ) :=
  (sortedCourses df).map (fun k => (k, colMean (groupValues df c k)))

/-- Step 5 aggregate: `groupby('coursename')[c].mean().sort_values(ascending=False)`.
The sort is modelled as a stable descending sort of the key-ascending
series, which is what the pandas double-reversal argsort performs when the
underlying sort is stable. -/
def aggregateMean (df : DataFrame) (c : String) : List (Value × Option ℚ) :=
  List.insertionSort rdesc (groupMeans df c)

/-- One step of the running first-maximum: replace the best pair only on a
strictly larger mean, so the first maximum wins. -/
def pickMax (best p : Value × ℚ) : Value × ℚ :=
  if best.2 < p.2 then p else best

/-- Step 8 `idxmax()` on a keyed mean series: the key of the first entry
(in series order) attaining the maximum mean, skipping absent means; `none`
for an empty or all-absent series. -/
def idxmaxAgg (l : List (Value × Option ℚ)) : Option Value :=
  match l.filterMap (fun p => p.2.map (fun q => (p.1, q))) with
  | [] => none
  | x :: xs => some ((xs.foldl pickMax x).1)

/-- The chart kinds offered by the Step 7 selectbox. -/
inductive ChartKind where
  | scatter
  | line
  | pie
deriving DecidableEq, Repr

/-- What Step 7 renders: one of the three charts with its data payload, or
the single informational insufficient-columns message. -/
inductive VizOutput where
  | scatterChart (points : List (Value × Value × Value))
  | lineChart (series : List (Value × List (List Value)))
  | pieChart (slices : List (Value × Option ℚ))
  | insufficientMsg
deriving DecidableEq, Repr

/-- The chart kind of a rendered output, `none` for the message. -/
def chartKindOf : VizOutput → Option ChartKind
  | .scatterChart _ => some .scatter
  | .lineChart _ => some .line
  | .pieChart _ => some .pie
  | .insufficientMsg => none

/-- Ascending order on optional values with the absent entries last, the
`sort_values` default for NaN in an ascending sort. -/
def optLeTopB : Option ℚ → Option ℚ → Bool
  | _, none => true
  | none, some _ => false
  | some a, some b => decide (a ≤ b)

/-- Row order for the line chart: `course_data.sort_values('coursecompletion')`,
ascending by the completion cell with missing entries last. -/
def rowCompLe (cols : List String) (r1 r2 : List Value) : Prop :=
  optLeTopB (toNum (getCell cols r1 "coursecompletion"))
    (toNum (getCell cols r2 "coursecompletion")) = true

instance (cols : List String) : DecidableRel (rowCompLe cols) :=
  fun _ _ => inferInstanceAs (Decidable (_ = true))

/-- Step 7 pie data: `filtered_df.groupby('coursename')['coursecompletion'].mean()`
(unsorted, so in ascending key order). -/
def pieSlices (df : DataFrame) : List (Value × Option ℚ) :=
  groupMeans df "coursecompletion"

/-- Sum of the pie input values (an absent mean contributes nothing). -/
def sliceTotal (df : DataFrame) : ℚ :=
  ((pieSlices df).filterMap (fun p => p.2)).sum

/-- The pie slice fractions: each course's mean completion divided by the
sum over all courses, which is how the pie renderer normalizes its input. -/
def pieFracs (df : DataFrame) : List (Value × ℚ) :=
  (pieSlices df).map (fun p => (p.1, p.2.getD 0 / sliceTotal df))

/-- The percentage label `autopct='%1.1f%%'` prints for a slice fraction:
one hundred times the fraction, rounded to one decimal place. -/
def pct1 (q : ℚ) : ℚ :=
  (round (1000 * q) : ℤ) / 10

/-- Step 7 dispatch: the three chart branches are guarded by the presence
of both `usersatisfaction` and `coursecompletion` in `numeric_cols`; when
either is absent the only output is the informational message. -/
def visualize (df : DataFrame) (nc : List String) (k : ChartKind) : VizOutput :=
  if "usersatisfaction" ∈ nc ∧ "coursecompletion" ∈ nc then
    match k with
    | .scatter => .scatterChart (df.rows.map (fun r =>
        (getCell df.cols r "coursecompletion", getCell df.cols r "usersatisfaction",
          getCell df.cols r "coursename")))
    | .line => .lineChart ((uniqueCourses df).map (fun c =>
        (c, List.insertionSort (rowCompLe df.cols) (courseRows df c))))
    | .pie => .pieChart (pieSlices df)
  else .insufficientMsg

/-- The user-visible items Step 8 can emit: the no-data warning, the two
superlative insight statements, and the closing correlation remark. -/
inductive Insight where
  | noData
  | topSessions (c : Option Value)
  | topCompletion (c : Option Value)
  | corrNote
deriving DecidableEq, Repr

/-- Step 8: on an empty filtered dataset only the no-data warning; otherwise
one insight per present metric column plus the closing remark. -/
def insights (filtered : DataFrame) (nc : List String) : List Insight :=
  if filtered.rows = [] then [.noData]
  else
    (if "sessionsperweek" ∈ nc then
      [.topSessions (idxmaxAgg (groupMeans filtered "sessionsperweek"))] else []) ++
    (if "coursecompletion" ∈ nc then
      [.topCompletion (idxmaxAgg (groupMeans filtered "coursecompletion"))] else []) ++
    [.corrNote]

/-- The order the Step 5 aggregate actually realizes: descending by mean,
and ascending by course key among equal means. -/
def lexDesc (p q : Value × Option ℚ) : Prop :=
  optLt q.2 p.2 ∨ (p.2 = q.2 ∧ klt p.1 q.1)

/-- What imputation does to one cell: a missing entry becomes the mean,
anything else is untouched. -/
def fillCell (m : ℚ) (v : Value) : Value :=
  if v = .missing then .num m else v

/-! ### Concrete datasets used by scenarios, counterexamples and witnesses -/

/-- The spec scenario dataset: courses A, A, B with sessions 2, 4, 6. -/
def dfScenario : DataFrame :=
  ⟨["coursename", "sessionsperweek"], [[.str "A", .num 2], [.str "A", .num 4], [.str "B", .num 6]]⟩

/-- A tie dataset: course B appears first, both courses have mean 5. -/
def dfTie : DataFrame :=
  ⟨["coursename", "sessionsperweek"], [[.str "B", .num 5], [.str "A", .num 5]]⟩

/-- The spec pie scenario: two courses with mean completions 80 and 40. -/
def dfPie : DataFrame :=
  ⟨["coursename", "coursecompletion", "usersatisfaction"],
    [[.str "A", .num 80, .num 1], [.str "B", .num 40, .num 2]]⟩

/-- A dataset whose only numeric column is entirely missing. -/
def dfAllMissing : DataFrame :=
  ⟨["quizscore"], [[.missing]]⟩

/-- A dataset with one missing quiz score among the values 2 and 4. -/
def dfImpute : DataFrame :=
  ⟨["coursename", "quizscore"], [[.str "A", .num 2], [.str "A", .missing], [.str "B", .num 4]]⟩

/-- A small two-course dataset with no duplicates or missing entries. -/
def dfSmall : DataFrame :=
  ⟨["coursename", "sessionsperweek"], [[.str "A", .num 2], [.str "B", .num 4]]⟩

/-- A dataset with an exactly duplicated row. -/
def dfDup : DataFrame :=
  ⟨["coursename"], [[.str "A"], [.str "A"]]⟩

/-- A dataset with columns but no rows. -/
def dfEmpty : DataFrame :=
  ⟨["coursename", "sessionsperweek"], []⟩

/-! ### Properties of first-occurrence deduplication -/

theorem mem_firstDedupAux {α : Type} [DecidableEq α] (x : α) (l : List α) :
    ∀ seen, x ∈ firstDedupAux seen l ↔ x ∈ l ∧ x ∉ seen := by
  induction l with
  | nil => intro seen; simp [firstDedupAux]
  | cons a as ih =>
    intro seen
    by_cases h : a ∈ seen
    · rw [firstDedupAux, if_pos h, ih seen]
      constructor
      · exact fun ⟨hx, hs⟩ => ⟨List.mem_cons_of_mem a hx, hs⟩
      · rintro ⟨hx, hs⟩
        rcases List.mem_cons.mp hx with rfl | hx
        · exact absurd h hs
        · exact ⟨hx, hs⟩
    · rw [firstDedupAux, if_neg h]
      simp only [List.mem_cons, ih (a :: seen)]
      by_cases hxa : x = a
      · subst hxa; simp [h]
      · simp [hxa]

theorem mem_firstDedup {α : Type} [DecidableEq α] (x : α) (l : List α) :
    x ∈ firstDedup l ↔ x ∈ l := by
  simp [firstDedup, mem_firstDedupAux]

theorem firstDedupAux_sublist {α : Type} [DecidableEq α] (l : List α) :
    ∀ seen, List.Sublist (firstDedupAux seen l) l := by
  induction l with
  | nil => intro seen; simp [firstDedupAux]
  | cons a as ih =>
    intro seen
    rw [firstDedupAux]
    by_cases h : a ∈ seen
    · rw [if_pos h]; exact (ih seen).cons a
    · rw [if_neg h]; exact (ih (a :: seen)).cons₂ a

theorem firstDedup_sublist {α : Type} [DecidableEq α] (l : List α) :
    List.Sublist (firstDedup l) l :=
  firstDedupAux_sublist l []

theorem firstDedupAux_nodup {α : Type} [DecidableEq α] (l : List α) :
    ∀ seen, (firstDedupAux seen l).Nodup := by
  induction l with
  | nil => intro seen; simp [firstDedupAux]
  | cons a as ih =>
    intro seen
    rw [firstDedupAux]
    by_cases h : a ∈ seen
    · rw [if_pos h]; exact ih seen
    · rw [if_neg h]
      refine List.nodup_cons.mpr ⟨fun hmem => ?_, ih (a :: seen)⟩
      exact ((mem_firstDedupAux a as (a :: seen)).mp hmem).2 (List.mem_cons_self a seen)

theorem firstDedup_nodup {α : Type} [DecidableEq α] (l : List α) :
    (firstDedup l).Nodup :=
  firstDedupAux_nodup l []

/-! ### The key order and the mean order are total orders -/

theorem charToNat_inj {a b : Char} (h : a.toNat = b.toNat) : a = b :=
  Char.eq_of_val_eq (UInt32.ext h)

theorem charsLe_total : ∀ a b : List Char, charsLe a b = true ∨ charsLe b a = true := by
  intro a
  induction a with
  | nil => intro b; left; cases b <;> rfl
  | cons x xs ih =>
    intro b
    cases b with
    | nil => right; rfl
    | cons y ys =>
      rcases Nat.lt_trichotomy x.toNat y.toNat with h | h | h
      · left; simp [charsLe, h]
      · have hne : ¬ x.toNat < y.toNat := by omega
        have hne2 : ¬ y.toNat < x.toNat := by omega
        rcases ih ys with h2 | h2
        · left; simp [charsLe, hne, hne2, h2]
        · right; simp [charsLe, hne, hne2, h2]
      · right; simp [charsLe, h]

theorem charsLe_trans : ∀ a b c : List Char,
    charsLe a b = true → charsLe b c = true → charsLe a c = true := by
  intro a
  induction a with
  | nil => intro b c _ _; cases c <;> rfl
  | cons x xs ih =>
    intro b c hab hbc
    cases b with
    | nil => simp [charsLe] at hab
    | cons y ys =>
      cases c with
      | nil => simp [charsLe] at hbc
      | cons z zs =>
        rw [charsLe] at hab hbc ⊢
        split_ifs at hab hbc ⊢ with h1 h2 h3 h4 h5 h6 <;>
          first
            | rfl
            | omega
            | (exact ih ys zs hab hbc)

theorem charsLe_antisymm : ∀ a b : List Char,
    charsLe a b = true → charsLe b a = true → a = b := by
  intro a
  induction a with
  | nil => intro b _ hba; cases b with
    | nil => rfl
    | cons y ys => simp [charsLe] at hba
  | cons x xs ih =>
    intro b hab hba
    cases b with
    | nil => simp [charsLe] at hab
    | cons y ys =>
      rw [charsLe] at hab hba
      split_ifs at hab hba with h1 h2 <;> try omega
      have hxy : x = y := charToNat_inj (by omega)
      rw [hxy, ih ys hab hba]

theorem kle_total (a b : Value) : kle a b ∨ kle b a := by
  cases a <;> cases b <;>
    simp only [kle, vleB, decide_eq_true_eq] <;>
    first
      | (left; trivial)
      | (right; trivial)
      | exact le_total _ _
      | exact charsLe_total _ _

theorem kle_trans {a b c : Value} (hab : kle a b) (hbc : kle b c) : kle a c := by
  cases a <;> cases b <;> cases c <;>
    simp only [kle, vleB, decide_eq_true_eq, Bool.false_eq_true] at hab hbc ⊢ <;>
    first
      | rfl
      | trivial
      | exact le_trans hab hbc
      | exact charsLe_trans _ _ _ hab hbc

theorem kle_antisymm {a b : Value} (hab : kle a b) (hba : kle b a) : a = b := by
  cases a <;> cases b <;>
    simp only [kle, vleB, decide_eq_true_eq, Bool.false_eq_true] at hab hba <;>
    first
      | rfl
      | exact congrArg Value.num (le_antisymm hab hba)
      | exact congrArg Value.str (String.ext (charsLe_antisymm _ _ hab hba))

instance : IsTotal Value kle := ⟨kle_total⟩

instance : IsTrans Value kle := ⟨fun _ _ _ => kle_trans⟩

theorem klt_trans {a b c : Value} (hab : klt a b) (hbc : klt b c) : klt a c := by
  refine ⟨kle_trans hab.1 hbc.1, fun he => ?_⟩
  subst he
  exact hbc.2 (kle_antisymm hbc.1 hab.1)

theorem optLe_total (x y : Option ℚ) : optLe x y ∨ optLe y x := by
  cases x <;> cases y <;>
    simp only [optLe, optLeB, decide_eq_true_eq] <;>
    first
      | (left; trivial)
      | (right; trivial)
      | exact le_total _ _

theorem optLe_trans {x y z : Option ℚ} (hxy : optLe x y) (hyz : optLe y z) : optLe x z := by
  cases x <;> cases y <;> cases z <;>
    simp only [optLe, optLeB, decide_eq_true_eq, Bool.false_eq_true] at hxy hyz ⊢ <;>
    first
      | rfl
      | trivial
      | exact le_trans hxy hyz

theorem optLe_antisymm {x y : Option ℚ} (hxy : optLe x y) (hyx : optLe y x) : x = y := by
  cases x <;> cases y <;>
    simp only [optLe, optLeB, decide_eq_true_eq, Bool.false_eq_true] at hxy hyx <;>
    first
      | rfl
      | exact congrArg some (le_antisymm hxy hyx)

theorem optLe_refl (x : Option ℚ) : optLe x x := by
  cases x <;> simp [optLe, optLeB]

theorem optLt_of_not_optLe {x y : Option ℚ} (h : ¬ optLe y x) : optLt x y :=
  ⟨(optLe_total x y).resolve_right h, h⟩

theorem optLt_irrefl (x : Option ℚ) : ¬ optLt x x :=
  fun h => h.2 h.1

instance : IsTotal (Value × Option ℚ) rdesc :=
  ⟨fun p q => optLe_total q.2 p.2⟩

instance : IsTrans (Value × Option ℚ) rdesc :=
  ⟨fun _ _ _ h1 h2 => optLe_trans h2 h1⟩

/-! ### Stability of the descending sort over key-ascending groups

`sort_values(ascending=False)` applied to the key-sorted `groupby` series
is a stable descending sort, so the output is ordered lexicographically:
strictly larger means first, and among equal means the ascending key order
of the groups survives. -/

theorem optLt_trans {x y z : Option ℚ} (hxy : optLt x y) (hyz : optLt y z) : optLt x z :=
  ⟨optLe_trans hxy.1 hyz.1, fun hzx => hyz.2 (optLe_trans hzx hxy.1)⟩

theorem lexDesc_trans {a b c : Value × Option ℚ}
    (hab : lexDesc a b) (hbc : lexDesc b c) : lexDesc a c := by
  rcases hab with h1 | ⟨he1, hk1⟩
  · rcases hbc with h2 | ⟨he2, hk2⟩
    · exact Or.inl (optLt_trans h2 h1)
    · exact Or.inl (he2 ▸ h1)
  · rcases hbc with h2 | ⟨he2, hk2⟩
    · exact Or.inl (he1 ▸ h2)
    · exact Or.inr ⟨he1.trans he2, klt_trans hk1 hk2⟩

theorem orderedInsert_lexDesc (a : Value × Option ℚ) :
    ∀ L : List (Value × Option ℚ), L.Pairwise lexDesc → (∀ y ∈ L, klt a.1 y.1) →
      (List.orderedInsert rdesc a L).Pairwise lexDesc := by
  intro L
  induction L with
  | nil => intro _ _; simp [List.orderedInsert]
  | cons b L ih =>
    intro hP hk
    obtain ⟨hbL, hPL⟩ := List.pairwise_cons.mp hP
    rw [List.orderedInsert]
    by_cases h : rdesc a b
    · rw [if_pos h]
      have hab : lexDesc a b := by
        by_cases h2 : optLe a.2 b.2
        · exact Or.inr ⟨(optLe_antisymm h h2).symm, hk b (List.mem_cons_self b L)⟩
        · exact Or.inl ⟨h, h2⟩
      refine List.pairwise_cons.mpr ⟨?_, hP⟩
      intro y hy
      rcases List.mem_cons.mp hy with rfl | hyL
      · exact hab
      · exact lexDesc_trans hab (hbL y hyL)
    · rw [if_neg h]
      refine List.pairwise_cons.mpr
        ⟨?_, ih hPL (fun y hy => hk y (List.mem_cons_of_mem b hy))⟩
      intro y hy
      rcases (List.mem_orderedInsert rdesc).mp hy with rfl | hyL
      · exact Or.inl (optLt_of_not_optLe h)
      · exact hbL y hyL

theorem insertionSort_lexDesc :
    ∀ l : List (Value × Option ℚ), l.Pairwise (fun p q => klt p.1 q.1) →
      (List.insertionSort rdesc l).Pairwise lexDesc := by
  intro l
  induction l with
  | nil => intro _; simp [List.insertionSort]
  | cons a l ih =>
    intro hP
    obtain ⟨ha, hl⟩ := List.pairwise_cons.mp hP
    rw [List.insertionSort]
    refine orderedInsert_lexDesc a _ (ih hl) ?_
    intro y hy
    exact ha y ((List.perm_insertionSort rdesc l).subset hy)

/-! ### Structure of the Step 5 aggregate -/

theorem sortedCourses_nodup (df : DataFrame) : (sortedCourses df).Nodup :=
  ((List.perm_insertionSort kle _).nodup_iff).mpr (firstDedup_nodup _)

theorem mem_sortedCourses (df : DataFrame) (v : Value) :
    v ∈ sortedCourses df ↔ v ∈ colValues df "coursename" ∧ v ≠ .missing := by
  unfold sortedCourses groupKeys
  rw [(List.perm_insertionSort kle _).mem_iff, mem_firstDedup, List.mem_filter]
  simp

theorem sortedCourses_pairwise_klt (df : DataFrame) : (sortedCourses df).Pairwise klt :=
  (List.sorted_insertionSort kle _).and (sortedCourses_nodup df)

theorem groupMeans_pairwise (df : DataFrame) (c : String) :
    (groupMeans df c).Pairwise (fun p q => klt p.1 q.1) := by
  unfold groupMeans
  rw [List.pairwise_map]
  exact sortedCourses_pairwise_klt df

theorem groupMeans_map_fst (df : DataFrame) (c : String) :
    (groupMeans df c).map Prod.fst = sortedCourses df := by
  simp only [groupMeans, List.map_map]
  exact List.map_id _ ▸ rfl

theorem aggregateMean_perm (df : DataFrame) (c : String) :
    (aggregateMean df c).Perm (groupMeans df c) :=
  List.perm_insertionSort rdesc _

theorem aggregateMean_pairwise_lexDesc (df : DataFrame) (c : String) :
    (aggregateMean df c).Pairwise lexDesc :=
  insertionSort_lexDesc _ (groupMeans_pairwise df c)

theorem mem_aggregateMean (df : DataFrame) (c : String) (p : Value × Option ℚ) :
    p ∈ aggregateMean df c ↔
      p.1 ∈ sortedCourses df ∧ p.2 = colMean (groupValues df c p.1) := by
  rw [(aggregateMean_perm df c).mem_iff]
  unfold groupMeans
  constructor
  · intro hp
    obtain ⟨k, hk, he⟩ := List.mem_map.mp hp
    rw [← he]
    exact ⟨hk, rfl⟩
  · intro ⟨hk, he⟩
    refine List.mem_map.mpr ⟨p.1, hk, ?_⟩
    rw [← he]

theorem aggregateMean_keys_nodup (df : DataFrame) (c : String) :
    ((aggregateMean df c).map Prod.fst).Nodup := by
  have hperm : ((aggregateMean df c).map Prod.fst).Perm (sortedCourses df) := by
    rw [← groupMeans_map_fst df c]
    exact (aggregateMean_perm df c).map Prod.fst
  exact hperm.nodup_iff.mpr (sortedCourses_nodup df)

/-! ### The imputation pass, column by column -/

theorem fillCell_ne_missing (m : ℚ) (v : Value) : fillCell m v ≠ .missing := by
  cases v <;> simp [fillCell]

theorem colAt_fillColumn_self (i : Nat) (rows : List (List Value)) (m : ℚ)
    (hm : colMean (colAt i rows) = some m) (hlen : ∀ r ∈ rows, i < r.length) :
    colAt i (fillColumn i rows) = (colAt i rows).map (fillCell m) := by
  have h : fillColumn i rows =
      rows.map (fun r => if r.getD i .missing = .missing then r.set i (.num m) else r) := by
    unfold fillColumn
    rw [hm]
  rw [h]
  simp only [colAt, List.map_map]
  refine List.map_congr_left ?_
  intro r hr
  simp only [Function.comp_apply]
  by_cases hmiss : r.getD i .missing = .missing
  · rw [if_pos hmiss]
    simp only [fillCell]
    rw [hmiss, if_pos rfl]
    simp [List.getD, List.getElem?_set_self, hlen r hr]
  · rw [if_neg hmiss]
    simp only [fillCell]
    rw [if_neg hmiss]

theorem colAt_fillColumn_ne (i j : Nat) (hij : j ≠ i) (rows : List (List Value)) :
    colAt i (fillColumn j rows) = colAt i rows := by
  cases hm : colMean (colAt j rows) with
  | none =>
    have h : fillColumn j rows = rows := by
      unfold fillColumn
      rw [hm]
    rw [h]
  | some m =>
    have h : fillColumn j rows =
        rows.map (fun r => if r.getD j .missing = .missing then r.set j (.num m) else r) := by
      unfold fillColumn
      rw [hm]
    rw [h]
    simp only [colAt, List.map_map]
    refine List.map_congr_left ?_
    intro r _
    simp only [Function.comp_apply]
    by_cases hmiss : r.getD j .missing = .missing
    · rw [if_pos hmiss]
      simp [List.getD, List.getElem?_set_ne hij]
    · rw [if_neg hmiss]

theorem fillColumn_mem_length (i : Nat) (rows : List (List Value)) :
    ∀ r ∈ fillColumn i rows, ∃ r0 ∈ rows, r.length = r0.length := by
  cases hm : colMean (colAt i rows) with
  | none => intro r hr; rw [fillColumn, hm] at hr; exact ⟨r, hr, rfl⟩
  | some m =>
    intro r hr
    rw [fillColumn, hm] at hr
    obtain ⟨r0, hr0, he⟩ := List.mem_map.mp hr
    refine ⟨r0, hr0, ?_⟩
    rw [← he]
    by_cases h : r0.getD i .missing = .missing
    · rw [if_pos h]; exact List.length_set r0 i _
    · rw [if_neg h]

theorem indexOf_ne_of_ne {cols : List String} {c c2 : String}
    (hc : c ∈ cols) (hne : c2 ≠ c) : cols.indexOf c2 ≠ cols.indexOf c := by
  intro h
  have h1 : cols.indexOf c < cols.length := List.indexOf_lt_length.mpr hc
  have h2 : cols.indexOf c2 < cols.length := h ▸ h1
  have hm2 : c2 ∈ cols := List.indexOf_lt_length.mp h2
  exact hne ((List.indexOf_inj hm2 hc).mp h)

theorem foldl_fill_not_mem (cols : List String) (c : String) (hc : c ∈ cols) :
    ∀ L : List String, c ∉ L → ∀ rows : List (List Value),
      colAt (cols.indexOf c)
        (L.foldl (fun rs c2 => fillColumn (cols.indexOf c2) rs) rows) =
      colAt (cols.indexOf c) rows := by
  intro L
  induction L with
  | nil => intro _ rows; rfl
  | cons c2 L ih =>
    intro hL rows
    rw [List.foldl_cons,
      ih (fun h => hL (List.mem_cons_of_mem c2 h)),
      colAt_fillColumn_ne _ _ (indexOf_ne_of_ne hc (fun h => hL (h ▸ List.mem_cons_self c2 L)))]

theorem foldl_fill_mem_length (cols : List String) :
    ∀ (L : List String) (rows : List (List Value)),
      ∀ r ∈ L.foldl (fun rs c2 => fillColumn (cols.indexOf c2) rs) rows,
        ∃ r0 ∈ rows, r.length = r0.length := by
  intro L
  induction L with
  | nil => intro rows r hr; exact ⟨r, hr, rfl⟩
  | cons c2 L ih =>
    intro rows r hr
    rw [List.foldl_cons] at hr
    obtain ⟨r1, hr1, he1⟩ := ih _ r hr
    obtain ⟨r0, hr0, he0⟩ := fillColumn_mem_length _ rows r1 hr1
    exact ⟨r0, hr0, he1.trans he0⟩

theorem foldl_fill_self (cols : List String) (c : String) (hc : c ∈ cols) (m : ℚ) :
    ∀ L : List String, L.Nodup → c ∈ L → ∀ rows : List (List Value),
      (∀ r ∈ rows, r.length = cols.length) →
      colMean (colAt (cols.indexOf c) rows) = some m →
      colAt (cols.indexOf c)
        (L.foldl (fun rs c2 => fillColumn (cols.indexOf c2) rs) rows) =
      (colAt (cols.indexOf c) rows).map (fillCell m) := by
  intro L
  induction L with
  | nil => intro _ hcL; exact absurd hcL (List.not_mem_nil c)
  | cons c2 L ih =>
    intro hnd hcL rows hrect hm
    obtain ⟨hnd1, hnd2⟩ := List.nodup_cons.mp hnd
    rw [List.foldl_cons]
    by_cases hcc : c2 = c
    · subst hcc
      have hnotL : c2 ∉ L := hnd1
      rw [foldl_fill_not_mem cols c2 hc L hnotL]
      exact colAt_fillColumn_self _ rows m hm
        (fun r hr => (hrect r hr) ▸ List.indexOf_lt_length.mpr hc)
    · have hcL2 : c ∈ L := (List.mem_cons.mp hcL).resolve_left (fun h => hcc h.symm)
      have hne : cols.indexOf c2 ≠ cols.indexOf c := indexOf_ne_of_ne hc hcc
      have hcol : colAt (cols.indexOf c) (fillColumn (cols.indexOf c2) rows) =
          colAt (cols.indexOf c) rows := colAt_fillColumn_ne _ _ hne rows
      refine (ih hnd2 hcL2 _ ?_ ?_).trans ?_
      · intro r hr
        obtain ⟨r0, hr0, he⟩ := fillColumn_mem_length _ rows r hr
        exact he.trans (hrect r0 hr0)
      · rw [hcol]; exact hm
      · rw [hcol]

theorem colValues_eq_colAt (df : DataFrame) (c : String) :
    colValues df c = colAt (df.cols.indexOf c) df.rows := rfl

theorem numericCols_nodup (df : DataFrame) : (numericCols df).Nodup :=
  (List.filter_sublist allNumericCols).nodup (by decide)

theorem mem_numericCols (df : DataFrame) (c : String) :
    c ∈ numericCols df ↔ c ∈ allNumericCols ∧ c ∈ df.cols := by
  simp [numericCols, List.mem_filter]

theorem fillnaAll_colValues (df : DataFrame) (c : String) (m : ℚ)
    (hrect : df.Rect) (hc : c ∈ numericCols df)
    (hm : colMean (colValues df c) = some m) :
    colValues (fillnaAll df) c = (colValues df c).map (fillCell m) := by
  have hccols : c ∈ df.cols := ((mem_numericCols df c).mp hc).2
  rw [colValues_eq_colAt, colValues_eq_colAt]
  exact foldl_fill_self df.cols c hccols m (numericCols df)
    (numericCols_nodup df) hc df.rows hrect hm

theorem fillnaAll_cols (df : DataFrame) : (fillnaAll df).cols = df.cols := rfl

theorem fillnaAll_rect (df : DataFrame) (hrect : df.Rect) : (fillnaAll df).Rect := by
  intro r hr
  obtain ⟨r0, hr0, he⟩ := foldl_fill_mem_length df.cols (numericCols df) df.rows r hr
  exact he.trans (hrect r0 hr0)

theorem renameCols_rect (df : DataFrame) (hrect : df.Rect) : (renameCols df).Rect := by
  intro r hr
  simp only [renameCols, List.length_map]
  exact hrect r hr

theorem groupMeans_dfScenario :
    groupMeans dfScenario "sessionsperweek" = [(.str "A", some 3), (.str "B", some 6)] := by
  have hs : sortedCourses dfScenario = [.str "A", .str "B"] := by decide
  have hA : groupValues dfScenario "sessionsperweek" (.str "A") = [.num 2, .num 4] := by decide
  have hB : groupValues dfScenario "sessionsperweek" (.str "B") = [.num 6] := by decide
  rw [groupMeans, hs]
  simp only [List.map_cons, List.map_nil, hA, hB]
  norm_num [colMean, numvals, toNum, List.filterMap]

theorem aggregateMean_dfScenario :
    aggregateMean dfScenario "sessionsperweek" = [(.str "B", some 6), (.str "A", some 3)] := by
  rw [aggregateMean, groupMeans_dfScenario]
  have hr : ¬ rdesc (Value.str "A", some (3:ℚ)) (Value.str "B", some 6) := by
    norm_num [rdesc, optLe, optLeB]
  simp only [List.insertionSort, List.orderedInsert, if_neg hr]

theorem groupMeans_dfTie :
    groupMeans dfTie "sessionsperweek" = [(.str "A", some 5), (.str "B", some 5)] := by
  have hs : sortedCourses dfTie = [.str "A", .str "B"] := by decide
  have hA : groupValues dfTie "sessionsperweek" (.str "A") = [.num 5] := by decide
  have hB : groupValues dfTie "sessionsperweek" (.str "B") = [.num 5] := by decide
  rw [groupMeans, hs]
  simp only [List.map_cons, List.map_nil, hA, hB]
  norm_num [colMean, numvals, toNum, List.filterMap]

theorem aggregateMean_dfTie :
    aggregateMean dfTie "sessionsperweek" = [(.str "A", some 5), (.str "B", some 5)] := by
  rw [aggregateMean, groupMeans_dfTie]
  have hr : rdesc (Value.str "A", some (5:ℚ)) (Value.str "B", some 5) := by
    norm_num [rdesc, optLe, optLeB]
  simp only [List.insertionSort, List.orderedInsert, if_pos hr]

/-! ### C1, C3, C4, C10 -/

/-- C1: after the cleaning stage every column name equals its original name
with surrounding whitespace stripped and all characters lowercased
(`cleanName` is exactly strip-then-lowercase over the characters), and the
renaming is positional — no other renaming occurs at any later stage. -/
theorem cleaned_column_names (df : DataFrame) :
    (clean df).cols = df.cols.map cleanName :=
  rfl

/-- C3: after cleaning no two rows are exactly identical, and every cleaned
row appears in the dataset as it stood just before duplicate removal
(after renaming and imputation). -/
theorem cleaned_rows_dedup (df : DataFrame) :
    (clean df).rows.Nodup ∧ ∀ r ∈ (clean df).rows, r ∈ (fillnaAll (renameCols df)).rows :=
  ⟨firstDedup_nodup _, fun r hr => (mem_firstDedup r _).mp hr⟩

/-- Witness for C3 at a concrete dataset with a duplicated row. -/
theorem cleaned_rows_dedup_witness :
    (clean dfDup).rows.Nodup ∧ [Value.str "A"] ∈ (fillnaAll (renameCols dfDup)).rows := by
  refine ⟨(cleaned_rows_dedup dfDup).1, (cleaned_rows_dedup dfDup).2 [Value.str "A"] ?_⟩
  decide

/-- C4: with a non-empty selection the filter keeps exactly the rows whose
`coursename` cell belongs to the selection; selecting the full set of
course identifiers reproduces the cleaned dataset row-for-row; and the
empty selection falls back to the full dataset, never an empty one. -/
theorem filter_rows_spec (df : DataFrame) (sel : List Value) :
    (sel ≠ [] → (filterCourses df sel).rows =
      df.rows.filter (fun r => decide (getCell df.cols r "coursename" ∈ sel))) ∧
    filterCourses df (uniqueCourses df) = df ∧
    filterCourses df [] = df := by
  refine ⟨fun h => by rw [filterCourses, if_neg h], ?_, by rw [filterCourses, if_pos rfl]⟩
  by_cases hu : uniqueCourses df = []
  · rw [filterCourses, if_pos hu]
  · rw [filterCourses, if_neg hu]
    have hall : df.rows.filter
        (fun r => decide (getCell df.cols r "coursename" ∈ uniqueCourses df)) = df.rows := by
      refine List.filter_eq_self.mpr ?_
      intro r hr
      refine decide_eq_true ((mem_firstDedup _ _).mpr ?_)
      exact List.mem_map.mpr ⟨r, hr, rfl⟩
    rw [hall]

/-- Witness for C4 at a concrete dataset and selection. -/
theorem filter_rows_spec_witness :
    (filterCourses dfSmall [Value.str "B"]).rows =
      dfSmall.rows.filter (fun r => decide (getCell dfSmall.cols r "coursename" ∈ [Value.str "B"])) ∧
    filterCourses dfSmall (uniqueCourses dfSmall) = dfSmall ∧
    filterCourses dfSmall [] = dfSmall := by
  have h := filter_rows_spec dfSmall [Value.str "B"]
  exact ⟨h.1 (by decide), (filter_rows_spec dfSmall (uniqueCourses dfSmall)).2.1,
    (filter_rows_spec dfSmall []).2.2⟩

/-- C10: filtering is a pure function of the cleaned dataset — the input
dataset is left untouched — and the filtered rows form an order-preserving
subsequence of the cleaned rows with identical cell values, sharing the
column header. -/
theorem filter_sublist_spec (df : DataFrame) (sel : List Value) :
    (filterCourses df sel).cols = df.cols ∧
    List.Sublist (filterCourses df sel).rows df.rows := by
  rw [filterCourses]
  by_cases h : sel = []
  · rw [if_pos h]
    exact ⟨rfl, List.Sublist.refl _⟩
  · rw [if_neg h]
    exact ⟨rfl, List.filter_sublist _⟩

/-! ### C2 -/

/-- C2 as stated fails on the code: in `dfAllMissing` the present numeric
column `quizscore` consists of a single missing value, its mean is
undefined, `fillna` leaves it unchanged, and the cleaned column still
contains a missing value. -/
theorem clean_missing_cex :
    "quizscore" ∈ numericCols (renameCols dfAllMissing) ∧
    Value.missing ∈ colValues (clean dfAllMissing) "quizscore" := by
  decide

/-- C2 (amended): for a present numeric column whose mean over non-missing
values exists (at least one non-missing numeric entry), imputation maps the
column cell-by-cell — missing cells become that pre-imputation mean, other
cells are unchanged — and after the full cleaning no value of the column is
missing. -/
theorem clean_imputes_with_mean (df : DataFrame) (c : String) (m : ℚ)
    (hrect : df.Rect) (hc : c ∈ numericCols (renameCols df))
    (hm : colMean (colValues (renameCols df) c) = some m) :
    colValues (fillnaAll (renameCols df)) c = (colValues (renameCols df) c).map (fillCell m) ∧
    ∀ v ∈ colValues (clean df) c, v ≠ .missing := by
  have h1 := fillnaAll_colValues (renameCols df) c m (renameCols_rect df hrect) hc hm
  refine ⟨h1, ?_⟩
  intro v hv
  obtain ⟨r, hr, he⟩ := List.mem_map.mp hv
  have hr2 : r ∈ (fillnaAll (renameCols df)).rows := (mem_firstDedup r _).mp hr
  have hv2 : v ∈ colValues (fillnaAll (renameCols df)) c := List.mem_map.mpr ⟨r, hr2, he⟩
  rw [h1] at hv2
  obtain ⟨v0, _, he0⟩ := List.mem_map.mp hv2
  rw [← he0]
  exact fillCell_ne_missing m v0

/-- Witness for the amended C2 at a dataset with one missing quiz score. -/
theorem clean_imputes_with_mean_witness :
    dfImpute.Rect ∧
    colValues (fillnaAll (renameCols dfImpute)) "quizscore" = [.num 2, .num 3, .num 4] ∧
    Value.missing ∉ colValues (clean dfImpute) "quizscore" := by
  have hrect : dfImpute.Rect := by unfold DataFrame.Rect; decide
  have hc : "quizscore" ∈ numericCols (renameCols dfImpute) := by decide
  have hv : colValues (renameCols dfImpute) "quizscore" = [.num 2, .missing, .num 4] := by decide
  have hm : colMean (colValues (renameCols dfImpute) "quizscore") = some 3 := by
    rw [hv]
    norm_num [colMean, numvals, toNum, List.filterMap]
  have h := clean_imputes_with_mean dfImpute "quizscore" 3 hrect hc hm
  refine ⟨hrect, ?_, fun hmem => h.2 Value.missing hmem rfl⟩
  rw [h.1, hv]
  decide

/-! ### C5 -/

/-- C5: the aggregate has one entry per distinct (non-missing) course key,
each entry carries the arithmetic mean of the column over that course's
rows, the entries are ordered by mean descending, and on the spec scenario
(courses A, A, B with sessions 2, 4, 6) it yields B with mean 6 before A
with mean 3. -/
theorem aggregate_spec (df : DataFrame) (c : String) :
    (∀ v : Value, v ∈ (aggregateMean df c).map Prod.fst ↔
      v ∈ colValues df "coursename" ∧ v ≠ .missing) ∧
    ((aggregateMean df c).map Prod.fst).Nodup ∧
    (∀ p ∈ aggregateMean df c, p.2 = colMean (groupValues df c p.1)) ∧
    (aggregateMean df c).Pairwise (fun p q => optLe q.2 p.2) ∧
    aggregateMean dfScenario "sessionsperweek" = [(.str "B", some 6), (.str "A", some 3)] := by
  refine ⟨?_, aggregateMean_keys_nodup df c, ?_, ?_, aggregateMean_dfScenario⟩
  · intro v
    have hperm : ((aggregateMean df c).map Prod.fst).Perm (sortedCourses df) := by
      rw [← groupMeans_map_fst df c]
      exact (aggregateMean_perm df c).map Prod.fst
    rw [hperm.mem_iff, mem_sortedCourses]
  · exact fun p hp => ((mem_aggregateMean df c p).mp hp).2
  · refine (aggregateMean_pairwise_lexDesc df c).imp ?_
    intro p q h
    rcases h with h | ⟨he, _⟩
    · exact h.1
    · exact he ▸ optLe_refl _

/-- Witness for C5 at the spec scenario dataset. -/
theorem aggregate_spec_witness :
    (Value.str "A") ∈ (aggregateMean dfScenario "sessionsperweek").map Prod.fst ∧
    (some 6 : Option ℚ) = colMean (groupValues dfScenario "sessionsperweek" (Value.str "B")) := by
  have h := aggregate_spec dfScenario "sessionsperweek"
  refine ⟨(h.1 (Value.str "A")).mpr ⟨by decide, by decide⟩, ?_⟩
  have hmem : (Value.str "B", (some 6 : Option ℚ)) ∈ aggregateMean dfScenario "sessionsperweek" := by
    rw [aggregateMean_dfScenario]
    exact List.mem_cons_self _ _
  exact h.2.2.1 (Value.str "B", some 6) hmem

/-! ### C6 -/

/-- C6 is false on the code at `dfTie`: both courses have the tied mean 5,
the first-seen order of the course identifiers is B then A, yet the
aggregate lists A before B, because `groupby` yields the keys in ascending
order and the stable descending value sort keeps that order on ties. -/
theorem aggregate_tie_cex :
    aggregateMean dfTie "sessionsperweek" = [(.str "A", some 5), (.str "B", some 5)] ∧
    uniqueCourses dfTie = [.str "B", .str "A"] ∧
    (aggregateMean dfTie "sessionsperweek").map Prod.fst ≠ uniqueCourses dfTie := by
  refine ⟨aggregateMean_dfTie, by decide, ?_⟩
  rw [aggregateMean_dfTie]
  decide

/-- C6 (amended): when two distinct courses have equal aggregate means, the
descending ordering places them in ascending course-identifier order (the
`groupby` key order), not in first-seen order. -/
theorem aggregate_tie_asc (df : DataFrame) (c : String) (i j : Nat) (hij : i < j)
    (a b : Value) (m : Option ℚ)
    (ha : (aggregateMean df c)[i]? = some (a, m))
    (hb : (aggregateMean df c)[j]? = some (b, m)) :
    klt a b := by
  obtain ⟨hi, hia⟩ := List.getElem?_eq_some.mp ha
  obtain ⟨hj, hjb⟩ := List.getElem?_eq_some.mp hb
  have hP := aggregateMean_pairwise_lexDesc df c
  have h := List.pairwise_iff_get.mp hP ⟨i, hi⟩ ⟨j, hj⟩ hij
  simp only [List.get_eq_getElem] at h
  rw [hia, hjb] at h
  rcases h with hlt | ⟨_, hk⟩
  · exact absurd hlt (optLt_irrefl m)
  · exact hk

/-- Witness for the amended C6 at the tie dataset. -/
theorem aggregate_tie_asc_witness : klt (Value.str "A") (Value.str "B") := by
  have ha : (aggregateMean dfTie "sessionsperweek")[0]? = some (Value.str "A", some 5) := by
    rw [aggregateMean_dfTie]; simp
  have hb : (aggregateMean dfTie "sessionsperweek")[1]? = some (Value.str "B", some 5) := by
    rw [aggregateMean_dfTie]; simp
  exact aggregate_tie_asc dfTie "sessionsperweek" 0 1 (by decide) _ _ _ ha hb

/-! ### C7 -/

/-- C7: a chart is produced exactly when both `usersatisfaction` and
`coursecompletion` are in the numeric column set, in which case the chart
kind matches the user selection; otherwise the dispatch yields only the
single informational insufficient-columns message.  The visualizer is a
pure function of the filtered dataset and the numeric column set, so no
other pipeline stage is affected. -/
theorem visualize_spec (df : DataFrame) (nc : List String) (k : ChartKind) :
    (visualize df nc k = .insufficientMsg ↔
      ¬("usersatisfaction" ∈ nc ∧ "coursecompletion" ∈ nc)) ∧
    (("usersatisfaction" ∈ nc ∧ "coursecompletion" ∈ nc) →
      chartKindOf (visualize df nc k) = some k) := by
  by_cases h : "usersatisfaction" ∈ nc ∧ "coursecompletion" ∈ nc
  · cases k <;> simp [visualize, chartKindOf, h]
  · simp [visualize, chartKindOf, h]

/-- Witness for C7: with only completion present the pie branch renders the
message; with both present the selected pie chart is rendered. -/
theorem visualize_spec_witness :
    visualize dfSmall ["coursecompletion"] ChartKind.pie = .insufficientMsg ∧
    chartKindOf (visualize dfPie ["usersatisfaction", "coursecompletion"] ChartKind.pie) =
      some ChartKind.pie :=
  ⟨(visualize_spec dfSmall ["coursecompletion"] ChartKind.pie).1.mpr (by decide),
    (visualize_spec dfPie ["usersatisfaction", "coursecompletion"] ChartKind.pie).2 (by decide)⟩

/-! ### C8 -/

/-- C8: on an empty filtered dataset Step 8 emits exactly the single
no-data notice and no insight statement; on a non-empty one it emits no
no-data notice, the top-sessions statement exactly when `sessionsperweek`
is in the numeric column set, and the top-completion statement exactly when
`coursecompletion` is. -/
theorem insights_spec (filtered : DataFrame) (nc : List String) :
    (filtered.rows = [] → insights filtered nc = [.noData]) ∧
    (filtered.rows ≠ [] →
      (Insight.noData ∉ insights filtered nc ∧
        ((∃ c, Insight.topSessions c ∈ insights filtered nc) ↔ "sessionsperweek" ∈ nc) ∧
        ((∃ c, Insight.topCompletion c ∈ insights filtered nc) ↔ "coursecompletion" ∈ nc))) := by
  constructor
  · intro h
    rw [insights, if_pos h]
  · intro h
    rw [insights, if_neg h]
    by_cases h1 : "sessionsperweek" ∈ nc <;> by_cases h2 : "coursecompletion" ∈ nc <;>
      simp [h1, h2]

/-- Witness for C8 at an empty and a non-empty dataset. -/
theorem insights_spec_witness :
    insights dfEmpty ["sessionsperweek"] = [.noData] ∧
    Insight.noData ∉ insights dfSmall ["sessionsperweek"] ∧
    Insight.topCompletion none ∉ insights dfSmall ["sessionsperweek"] := by
  refine ⟨(insights_spec dfEmpty ["sessionsperweek"]).1 rfl,
    ((insights_spec dfSmall ["sessionsperweek"]).2 (by decide)).1, ?_⟩
  intro hmem
  exact absurd (((insights_spec dfSmall ["sessionsperweek"]).2 (by decide)).2.2.mp ⟨none, hmem⟩)
    (by decide)

/-! ### C9 -/

theorem pieSlices_dfPie : pieSlices dfPie = [(.str "A", some 80), (.str "B", some 40)] := by
  have hs : sortedCourses dfPie = [.str "A", .str "B"] := by decide
  have hA : groupValues dfPie "coursecompletion" (.str "A") = [.num 80] := by decide
  have hB : groupValues dfPie "coursecompletion" (.str "B") = [.num 40] := by decide
  rw [pieSlices, groupMeans, hs]
  simp only [List.map_cons, List.map_nil, hA, hB]
  norm_num [colMean, numvals, toNum, List.filterMap]

theorem pieFracs_dfPie : pieFracs dfPie = [(.str "A", 2/3), (.str "B", 1/3)] := by
  have ht : sliceTotal dfPie = 120 := by
    rw [sliceTotal, pieSlices_dfPie]
    norm_num [List.filterMap]
  rw [pieFracs, pieSlices_dfPie, ht]
  norm_num

/-- C9: the pie input has one slice per distinct (non-missing) course, each
slice carries the course's mean completion, each slice fraction is that
mean divided by the sum over all courses, and on the spec scenario (mean
completions 80 and 40) the one-decimal percentage labels are 66.7 and
33.3. -/
theorem pie_spec (df : DataFrame) :
    (∀ p ∈ pieSlices df, p.2 = colMean (groupValues df "coursecompletion" p.1)) ∧
    ((pieSlices df).map Prod.fst).Nodup ∧
    (∀ v : Value, v ∈ (pieSlices df).map Prod.fst ↔
      v ∈ colValues df "coursename" ∧ v ≠ .missing) ∧
    (∀ p ∈ pieFracs df, ∃ m : Option ℚ,
      (p.1, m) ∈ pieSlices df ∧ p.2 = m.getD 0 / sliceTotal df) ∧
    (pieFracs dfPie).map (fun p => (p.1, pct1 p.2)) =
      [(.str "A", 667/10), (.str "B", 333/10)] := by
  refine ⟨?_, ?_, ?_, ?_, ?_⟩
  · intro p hp
    obtain ⟨k, hk, he⟩ := List.mem_map.mp hp
    rw [← he]
  · rw [pieSlices, groupMeans_map_fst]
    exact sortedCourses_nodup df
  · intro v
    rw [pieSlices, groupMeans_map_fst df "coursecompletion", mem_sortedCourses]
  · intro p hp
    obtain ⟨q, hq, he⟩ := List.mem_map.mp hp
    exact ⟨q.2, by rw [← he]; exact hq, by rw [← he]⟩
  · rw [pieFracs_dfPie]
    norm_num [pct1, round_eq]

/-- Witness for C9 at the pie scenario dataset. -/
theorem pie_spec_witness :
    (Value.str "A") ∈ (pieSlices dfPie).map Prod.fst ∧
    (some 80 : Option ℚ) = colMean (groupValues dfPie "coursecompletion" (Value.str "A")) ∧
    ((2:ℚ)/3) = (some (80:ℚ)).getD 0 / sliceTotal dfPie := by
  have h := pie_spec dfPie
  refine ⟨(h.2.2.1 (Value.str "A")).mpr ⟨by decide, by decide⟩, ?_, ?_⟩
  · refine h.1 (Value.str "A", some 80) ?_
    rw [pieSlices_dfPie]
    exact List.mem_cons_self _ _
  · have hp : (Value.str "A", (2:ℚ)/3) ∈ pieFracs dfPie := by
      rw [pieFracs_dfPie]
      exact List.mem_cons_self _ _
    obtain ⟨m, hm, he⟩ := h.2.2.2.1 _ hp
    have hm80 : m = some 80 := by
      rw [pieSlices_dfPie] at hm
      rcases List.mem_cons.mp hm with h1 | h1
      · simpa using congrArg Prod.snd h1
      · rcases List.mem_cons.mp h1 with h2 | h2
        · have h2a : Value.str "A" = Value.str "B" := by simpa using congrArg Prod.fst h2
          exact absurd h2a (by decide)
        · exact absurd h2 (List.not_mem_nil _)
    rw [← hm80]
    exact he
